import Mathlib

/-!
Shallow embedding of `ephemeris/run_data_managers.py` (the orchestration core:
`wait`, `check_data_table_entry_exists`, and the body of `run_dm`).

The remote Galaxy service is modelled by an explicit environment `Env`:
the data-table client (`tables`), the submission client (`outputsOf`), and the
dataset-state oracle polled by `wait` (`stateOf`, indexed by dataset id and
poll number).  All externally visible effects of a run (job submissions,
poll-progress notices, sleeps, table reloads) are collected in a trace of
`Event`s; exceptions raised by the existence checker are `RunError`s that
abort the run, exactly as an uncaught Python exception would.
-/

namespace Ephemeris

/-- An externally visible effect of the orchestration loop. -/
inductive Event where
  | submit (toolId : String) (inputs : List (String × String))
  | pollNotice
  | sleep (seconds : Nat)
  | reload (table : String)
deriving DecidableEq, Repr

/-- Exceptions that escape the orchestration loop uncaught.
`tableNotFound` models `Exception('Table %s does not exist')`,
`valueColumnMissing` models `Exception('Value does not exist in data table')`,
`rowIndexError` the IndexError raised by `field[value_index]` on a short row,
and `waitIncomplete` the IndexError raised by `job['outputs'][0]` in `wait`
when the submission reports no output datasets. -/
inductive RunError where
  | tableNotFound
  | valueColumnMissing
  | rowIndexError
  | waitIncomplete
deriving DecidableEq, Repr

/-- The column layout and row set of one data table, as returned by
`tool_data_client.show_data_table`. -/
structure TableContent where
  columns : List String
  fields : List (List String)
deriving DecidableEq, Repr

instance {ε α : Type} [DecidableEq ε] [DecidableEq α] : DecidableEq (Except ε α) :=
  fun a b =>
    match a, b with
    | .ok x, .ok y => decidable_of_iff (x = y) (by simp)
    | .ok _, .error _ => isFalse fun h => Except.noConfusion h
    | .error _, .ok _ => isFalse fun h => Except.noConfusion h
    | .error x, .error y => decidable_of_iff (x = y) (by simp)

/-- The dataset states `wait` treats as terminal: `['ok', 'error']`. -/
def terminalStates : List String := ["ok", "error"]

/-- The loop body of `wait`: at poll `k`, if the watched dataset's state is in
`terminalStates` the loop breaks; otherwise it logs a progress notice, sleeps
30 seconds and polls again.  `fuel` bounds the number of iterations the model
unfolds; the Boolean records whether the loop actually terminated within
`fuel` polls (the source loop has no timeout). -/
def waitLoop (stateAt : Nat → String) : Nat → Nat → List Event × Bool
  | 0, _ => ([], false)
  | fuel + 1, k =>
    if stateAt k ∈ terminalStates then ([], true)
    else
      let r := waitLoop stateAt fuel (k + 1)
      (Event.pollNotice :: Event.sleep 30 :: r.1, r.2)

/-- `wait(gi, job)`: extracts `job['outputs'][0]['id']` and polls that
dataset's state until it is terminal.  An empty output list models the
IndexError the source would raise on `value[0]`. -/
def wait (stateOf : String → Nat → String) (outputs : List String) (fuel : Nat) :
    List Event × Bool :=
  match outputs with
  | [] => ([], false)
  | oid :: _ => waitLoop (stateOf oid) fuel 0

/-- Scan of `data_table_content.get('fields')`:
`for field in fields: if field[value_index] == value: return True`, then
`return False`.  A row shorter than `value_index` raises an IndexError. -/
def findValue (idx : Nat) (value : String) : List (List String) → Except RunError Bool
  | [] => .ok false
  | field :: rest =>
    match field[idx]? with
    | none => .error .rowIndexError
    | some v => if v = value then .ok true else findValue idx value rest

/-- `check_data_table_entry_exists(tool_data_client, data_table_name, value)`:
fetch the table (failure ⇒ `tableNotFound`), locate the first column named
`"value"` via `.index` (failure ⇒ `valueColumnMissing`), and scan the rows. -/
def check_data_table_entry_exists (tables : String → Option TableContent)
    (name value : String) : Except RunError Bool :=
  match tables name with
  | none => .error .tableNotFound
  | some tc =>
    match tc.columns.indexOf? "value" with
    | none => .error .valueColumnMissing
    | some idx => findValue idx value tc.fields

/-! ## Template resolution

`re.sub(r'\x7b\x7b\s*item\s*\x7d\x7d', item, value, flags=re.IGNORECASE)`:
a left-to-right scan replacing each non-overlapping occurrence of the
placeholder (open braces, optional whitespace, `item` in any casing, optional
whitespace, close braces) by the item string, without rescanning the
replacement. -/

/-- Python's `\s` character class (ASCII). -/
def pySpace (c : Char) : Bool := c ∈ [' ', '\t', '\n', '\x0B', '\x0C', '\r']

/-- Case-insensitive match of the lowercase pattern `pat` against a prefix of
the input; returns the remainder on success. -/
def matchCI : List Char → List Char → Option (List Char)
  | [], rest => some rest
  | _ :: _, [] => none
  | c :: cs, d :: ds => if d.toLower = c then matchCI cs ds else none

/-- Try to match the placeholder regex at the head of the input; returns the
remainder after the match. -/
def matchPlaceholder : List Char → Option (List Char)
  | '{' :: '{' :: rest =>
    match matchCI ['i', 't', 'e', 'm'] (rest.dropWhile pySpace) with
    | none => none
    | some r2 =>
      match r2.dropWhile pySpace with
      | '}' :: '}' :: r4 => some r4
      | _ => none
  | _ => none

/-- The substitution scan.  `fuel` only drives structural recursion; any
`fuel ≥ l.length` yields the full scan since every step consumes at least one
character. -/
def substAux (item : List Char) : Nat → List Char → List Char
  | 0, l => l
  | _ + 1, [] => []
  | fuel + 1, c :: cs =>
    match matchPlaceholder (c :: cs) with
    | some rest => item ++ substAux item fuel rest
    | none => c :: substAux item fuel cs

/-- `re.sub` of the placeholder pattern over a character list. -/
def pySubL (item l : List Char) : List Char := substAux item l.length l

/-- `re.sub(r'\x7b\x7b\s*item\s*\x7d\x7d', item, value, flags=re.IGNORECASE)`. -/
def pySub (item value : String) : String := ⟨pySubL item.data value.data⟩

/-! ## The orchestration loop `run_dm` -/

/-- One entry of the `data_managers` list of the YAML config. `items` is
`none` when the key is absent (the source then uses `dm.get('items', [''])`).
Each element of `params` is the single key/value pair of one param dict. -/
structure JobSpec where
  id : String
  items : Option (List String)
  params : List (String × String)
  data_table_reload : List String
deriving DecidableEq, Repr

/-- `dm.get('items', [''])`. -/
def effItems (dm : JobSpec) : List String := dm.items.getD [""]

/-- `inputs.update(\x7bkey: value\x7d)` on an insertion-ordered dict: a later
binding of an existing key overwrites its value in place. -/
def updateAssoc : List (String × String) → String → String → List (String × String)
  | [], k, v => [(k, v)]
  | (k', v') :: rest, k, v =>
    if k' = k then (k, v) :: rest else (k', v') :: updateAssoc rest k v

/-- The `for param in params` loop: resolve the placeholder in each value and
build the `inputs` dict. -/
def resolveInputs (params : List (String × String)) (item : String) :
    List (String × String) :=
  params.foldl (fun acc kv => updateAssoc acc kv.1 (pySub item kv.2)) []

/-- The inner `for input_value in inputs.values()` loop: the first absent
value sets the flag to `False` and breaks; each present value sets it to
`True`.  An empty value list leaves the incoming flag unchanged. -/
def checkValuesLoop (tables : String → Option TableContent) (table : String) :
    List String → Bool → Except RunError Bool
  | [], acc => .ok acc
  | v :: rest, _ =>
    match check_data_table_entry_exists tables table v with
    | .error e => .error e
    | .ok false => .ok false
    | .ok true => checkValuesLoop tables table rest true

/-- The outer `for data_table in dm.get('data_table_reload', [])` loop: each
table's scan overwrites `item_present_in_data_table`. -/
def checkTablesLoop (tables : String → Option TableContent) (values : List String) :
    List String → Bool → Except RunError Bool
  | [], acc => .ok acc
  | t :: rest, acc =>
    match checkValuesLoop tables t values acc with
    | .error e => .error e
    | .ok acc' => checkTablesLoop tables values rest acc'

/-- `for i in range(2): reload_data_table(str(data_table)); time.sleep(5)`. -/
def reloadRange (t : String) : Nat → List Event
  | 0 => []
  | n + 1 => Event.reload t :: Event.sleep 5 :: reloadRange t n

/-- The reload loop over all declared reload targets, in declaration order. -/
def reloadAll : List String → List Event
  | [] => []
  | t :: ts => reloadRange t 2 ++ reloadAll ts

/-- The remote service as seen by `run_dm`: the data-table client, the
submission client (tool id and inputs ↦ output dataset ids), the dataset-state
oracle polled by `wait`, and a per-dataset bound on the number of polls the
model unfolds. -/
structure Env where
  tables : String → Option TableContent
  outputsOf : String → List (String × String) → List String
  stateOf : String → Nat → String
  pollBound : String → Nat

/-- The body of the `for item in dm.get('items', [''])` loop: resolve inputs,
run the presence check over all reload targets, and either skip, or submit
the job, wait for it, and reload every declared table twice. -/
def runItem (env : Env) (dm : JobSpec) (item : String) : List Event × Option RunError :=
  let inputs := resolveInputs dm.params item
  match checkTablesLoop env.tables (inputs.map Prod.snd) dm.data_table_reload false with
  | .error e => ([], some e)
  | .ok present =>
    if present then ([], none)
    else
      let outputs := env.outputsOf dm.id inputs
      match outputs with
      | [] => ([Event.submit dm.id inputs], some .waitIncomplete)
      | oid :: _ =>
        let w := waitLoop (env.stateOf oid) (env.pollBound oid + 1) 0
        if w.2 then
          (Event.submit dm.id inputs :: w.1 ++ reloadAll dm.data_table_reload, none)
        else
          (Event.submit dm.id inputs :: w.1, some .waitIncomplete)

/-- The item loop of one data manager; an uncaught error aborts the run. -/
def runItems (env : Env) (dm : JobSpec) : List String → List Event × Option RunError
  | [] => ([], none)
  | it :: rest =>
    match runItem env dm it with
    | (evs, some e) => (evs, some e)
    | (evs, none) =>
      let r := runItems env dm rest
      (evs ++ r.1, r.2)

/-- One data manager: iterate its items (or the single empty item). -/
def runJob (env : Env) (dm : JobSpec) : List Event × Option RunError :=
  runItems env dm (effItems dm)

/-- The `for dm in conf.get('data_managers')` loop of `run_dm`. -/
def run_dm (env : Env) : List JobSpec → List Event × Option RunError
  | [] => ([], none)
  | dm :: rest =>
    match runJob env dm with
    | (evs, some e) => (evs, some e)
    | (evs, none) =>
      let r := run_dm env rest
      (evs ++ r.1, r.2)

/-! ## Helper lemmas -/

/-- The event trace of a `wait` that observes `n` non-terminal polls. -/
def waitEvents (n : Nat) : List Event :=
  (List.replicate n [Event.pollNotice, Event.sleep 30]).flatten

lemma waitEvents_succ (n : Nat) :
    waitEvents (n + 1) = Event.pollNotice :: Event.sleep 30 :: waitEvents n := by
  simp [waitEvents, List.replicate_succ]

lemma waitLoop_terminal (stateAt : Nat → String) :
    ∀ (n k fuel : Nat), (∀ m, m < n → stateAt (k + m) ∉ terminalStates) →
    stateAt (k + n) ∈ terminalStates → n < fuel →
    waitLoop stateAt fuel k = (waitEvents n, true) := by
  intro n
  induction n with
  | zero =>
    intro k fuel _ hterm hfuel
    obtain ⟨f, rfl⟩ : ∃ f, fuel = f + 1 := ⟨fuel - 1, by omega⟩
    simp only [Nat.add_zero] at hterm
    simp [waitLoop, hterm, waitEvents]
  | succ n ih =>
    intro k fuel hbefore hterm hfuel
    obtain ⟨f, rfl⟩ : ∃ f, fuel = f + 1 := ⟨fuel - 1, by omega⟩
    have hk : stateAt k ∉ terminalStates := by
      have := hbefore 0 (Nat.succ_pos n); simpa using this
    have hrec : waitLoop stateAt f (k + 1) = (waitEvents n, true) := by
      refine ih (k + 1) f (fun m hm => ?_) ?_ (Nat.lt_of_succ_lt_succ hfuel)
      · have := hbefore (m + 1) (Nat.succ_lt_succ hm)
        simpa [Nat.add_comm, Nat.add_assoc, Nat.add_left_comm] using this
      · have : k + 1 + n = k + (n + 1) := by omega
        rw [this]; exact hterm
    simp [waitLoop, hk, hrec, waitEvents_succ]

lemma waitLoop_nonterminal (stateAt : Nat → String)
    (h : ∀ m, stateAt m ∉ terminalStates) :
    ∀ (fuel k : Nat), waitLoop stateAt fuel k = (waitEvents fuel, false) := by
  intro fuel
  induction fuel with
  | zero => intro k; simp [waitLoop, waitEvents]
  | succ f ih => intro k; simp [waitLoop, h k, ih (k + 1), waitEvents_succ]

/-- C2.  `wait` returns only once the relevant output dataset of the job (the
first one, whose state the source polls) is in a terminal state `'ok'` or
`'error'`: if the dataset is non-terminal for the first `n` polls and terminal
at poll `n`, `wait` completes having emitted exactly `n` progress notices,
each followed by a 30-second sleep.  Moreover the loop has no timeout: on a
dataset that never reaches a terminal state, no amount of fuel makes the loop
return, and it emits a notice and a 30-second sleep on every poll. -/
theorem wait_polls_until_terminal (stateOf : String → Nat → String)
    (oid : String) (rest : List String) (n fuel : Nat)
    (hbefore : ∀ m, m < n → stateOf oid m ∉ terminalStates)
    (hterm : stateOf oid n ∈ terminalStates) (hfuel : n < fuel) :
    wait stateOf (oid :: rest) fuel = (waitEvents n, true) ∧
    (∀ (st : Nat → String), (∀ m, st m ∉ terminalStates) →
      ∀ f, waitLoop st f 0 = (waitEvents f, false)) := by
  constructor
  · have := waitLoop_terminal (stateOf oid) n 0 fuel
      (by simpa using hbefore) (by simpa using hterm) hfuel
    simpa [wait] using this
  · intro st hst f; exact waitLoop_nonterminal st hst f 0

/-- Witness for C2: a dataset that is `'running'` for two polls and then
`'ok'` makes `wait` return after exactly two notice/sleep iterations. -/
theorem wait_polls_until_terminal_witness :
    wait (fun _ k => if k < 2 then "running" else "ok") ["d1"] 3 = (waitEvents 2, true) :=
  (wait_polls_until_terminal (fun _ k => if k < 2 then "running" else "ok")
    "d1" [] 2 3 (by decide) (by decide) (by decide)).1

lemma checkValuesLoop_cons (tables : String → Option TableContent)
    (t v : String) (rest : List String) (acc : Bool) :
    checkValuesLoop tables t (v :: rest) acc =
      match check_data_table_entry_exists tables t v with
      | .error e => .error e
      | .ok false => .ok false
      | .ok true => checkValuesLoop tables t rest true := rfl

lemma checkTablesLoop_cons (tables : String → Option TableContent)
    (values : List String) (t : String) (rest : List String) (acc : Bool) :
    checkTablesLoop tables values (t :: rest) acc =
      match checkValuesLoop tables t values acc with
      | .error e => .error e
      | .ok acc1 => checkTablesLoop tables values rest acc1 := rfl

lemma checkValuesLoop_ok_iff (tables : String → Option TableContent) (t : String) :
    ∀ (values : List String) (acc b : Bool), values ≠ [] →
    checkValuesLoop tables t values acc = .ok b →
    (b = true ↔ ∀ v ∈ values, check_data_table_entry_exists tables t v = .ok true) := by
  intro values
  induction values with
  | nil => intro acc b h; exact absurd rfl h
  | cons v vs ih =>
    intro acc b _ h
    rw [checkValuesLoop_cons] at h
    cases hc : check_data_table_entry_exists tables t v with
    | error e => rw [hc] at h; simp at h
    | ok bv =>
      rw [hc] at h
      cases bv with
      | false =>
        obtain rfl : (false : Bool) = b := by simpa using h
        refine ⟨fun hft => absurd hft (by decide), fun hall => ?_⟩
        have hv := hall v (List.mem_cons_self v vs)
        rw [hc] at hv
        exact absurd hv (by simp)
      | true =>
        have h2 : checkValuesLoop tables t vs true = .ok b := by simpa using h
        cases vs with
        | nil =>
          obtain rfl : (true : Bool) = b := by simpa [checkValuesLoop] using h2
          simp [hc]
        | cons w ws =>
          have := ih true b (by simp) h2
          simp [this, hc]

lemma checkValuesLoop_break (tables : String → Option TableContent) (t v : String)
    (rest : List String) (acc : Bool)
    (hc : check_data_table_entry_exists tables t v = .ok false) :
    checkValuesLoop tables t (v :: rest) acc = .ok false := by
  simp [checkValuesLoop, hc]

lemma checkValuesLoop_all (tables : String → Option TableContent) (t : String) :
    ∀ (values : List String) (acc : Bool), values ≠ [] →
    (∀ v ∈ values, check_data_table_entry_exists tables t v = .ok true) →
    checkValuesLoop tables t values acc = .ok true := by
  intro values
  induction values with
  | nil => intro acc h; exact absurd rfl h
  | cons v vs ih =>
    intro acc _ hall
    have hc := hall v (List.mem_cons_self v vs)
    rw [checkValuesLoop_cons, hc]
    cases vs with
    | nil => rfl
    | cons w ws =>
      exact ih true (by simp) (fun u hu => hall u (List.mem_cons_of_mem v hu))

lemma checkTablesLoop_append_last (tables : String → Option TableContent)
    (values : List String) :
    ∀ (ts : List String) (t : String) (acc b : Bool), values ≠ [] →
    checkTablesLoop tables values (ts ++ [t]) acc = .ok b →
    (b = true ↔ ∀ v ∈ values, check_data_table_entry_exists tables t v = .ok true) := by
  intro ts
  induction ts with
  | nil =>
    intro t acc b hne h
    rw [List.nil_append, checkTablesLoop_cons] at h
    cases hv : checkValuesLoop tables t values acc with
    | error e => rw [hv] at h; simp at h
    | ok acc1 =>
      rw [hv] at h
      obtain rfl : acc1 = b := by simpa [checkTablesLoop] using h
      exact checkValuesLoop_ok_iff tables t values acc acc1 hne hv
  | cons t1 ts ih =>
    intro t acc b hne h
    rw [List.cons_append, checkTablesLoop_cons] at h
    cases hv : checkValuesLoop tables t1 values acc with
    | error e => rw [hv] at h; simp at h
    | ok acc1 =>
      rw [hv] at h
      exact ih t acc1 b hne (by simpa using h)

lemma checkTablesLoop_all (tables : String → Option TableContent)
    (values : List String) (hne : values ≠ []) :
    ∀ (ts : List String) (acc : Bool), ts ≠ [] →
    (∀ t ∈ ts, ∀ v ∈ values, check_data_table_entry_exists tables t v = .ok true) →
    checkTablesLoop tables values ts acc = .ok true := by
  intro ts
  induction ts with
  | nil => intro acc h; exact absurd rfl h
  | cons t ts ih =>
    intro acc _ hall
    have hv := checkValuesLoop_all tables t values acc hne
      (hall t (List.mem_cons_self t ts))
    rw [checkTablesLoop_cons, hv]
    cases ts with
    | nil => rfl
    | cons u us =>
      exact ih true (by simp) (fun s hs => hall s (List.mem_cons_of_mem t hs))

lemma checkTablesLoop_nil_values (tables : String → Option TableContent) :
    ∀ (ts : List String) (acc : Bool), checkTablesLoop tables [] ts acc = .ok acc := by
  intro ts
  induction ts with
  | nil => intro acc; rfl
  | cons t ts ih => intro acc; simpa [checkTablesLoop, checkValuesLoop] using ih acc

lemma findValue_spec (idx : Nat) (value : String) :
    ∀ (rows : List (List String)), (∀ row ∈ rows, idx < row.length) →
    findValue idx value rows = .ok (rows.any fun row => row[idx]? == some value) := by
  intro rows
  induction rows with
  | nil => intro _; rfl
  | cons r rs ih =>
    intro hlen
    have hr : idx < r.length := hlen r (List.mem_cons_self r rs)
    obtain ⟨v, hv⟩ : ∃ v, r[idx]? = some v := ⟨r[idx], List.getElem?_eq_getElem hr⟩
    by_cases hveq : v = value
    · subst hveq; simp [findValue, hv]
    · have := ih (fun row hrow => hlen row (List.mem_cons_of_mem r hrow))
      simp [findValue, hv, hveq, this]

lemma runItems_cons (env : Env) (dm : JobSpec) (it : String) (rest : List String) :
    runItems env dm (it :: rest) =
      match runItem env dm it with
      | (evs, some e) => (evs, some e)
      | (evs, none) => (evs ++ (runItems env dm rest).1, (runItems env dm rest).2) := rfl

lemma run_dm_cons (env : Env) (dm : JobSpec) (rest : List JobSpec) :
    run_dm env (dm :: rest) =
      match runJob env dm with
      | (evs, some e) => (evs, some e)
      | (evs, none) => (evs ++ (run_dm env rest).1, (run_dm env rest).2) := rfl

lemma runItem_check_error (env : Env) (dm : JobSpec) (it : String) (e : RunError)
    (h : checkTablesLoop env.tables ((resolveInputs dm.params it).map Prod.snd)
      dm.data_table_reload false = .error e) :
    runItem env dm it = ([], some e) := by
  simp [runItem, h]

lemma runItem_skip (env : Env) (dm : JobSpec) (it : String)
    (h : checkTablesLoop env.tables ((resolveInputs dm.params it).map Prod.snd)
      dm.data_table_reload false = .ok true) :
    runItem env dm it = ([], none) := by
  simp [runItem, h]

lemma runItem_head_submit (env : Env) (dm : JobSpec) (it : String)
    (h : checkTablesLoop env.tables ((resolveInputs dm.params it).map Prod.snd)
      dm.data_table_reload false = .ok false) :
    (runItem env dm it).1.head? =
      some (Event.submit dm.id (resolveInputs dm.params it)) := by
  simp only [runItem, h]
  cases houts : env.outputsOf dm.id (resolveInputs dm.params it) with
  | nil => simp [houts]
  | cons oid orest =>
    simp only [houts]
    by_cases hw : (waitLoop (env.stateOf oid) (env.pollBound oid + 1) 0).2 = true
    · simp [hw]
    · simp [hw]

lemma run_dm_cons_err (env : Env) (dm : JobSpec) (rest : List JobSpec)
    (evs1 : List Event) (e : RunError) (hj : runJob env dm = (evs1, some e)) :
    run_dm env (dm :: rest) = (evs1, some e) := by
  rw [run_dm_cons, hj]

lemma run_dm_cons_ok (env : Env) (dm : JobSpec) (rest : List JobSpec)
    (evs1 : List Event) (hj : runJob env dm = (evs1, none)) :
    run_dm env (dm :: rest) = (evs1 ++ (run_dm env rest).1, (run_dm env rest).2) := by
  rw [run_dm_cons, hj]

lemma run_dm_append_error (env : Env) (bad : JobSpec) (post : List JobSpec)
    (evs2 : List Event) (e : RunError) (hbad : runJob env bad = (evs2, some e)) :
    ∀ (pre : List JobSpec) (evs : List Event), run_dm env pre = (evs, none) →
    run_dm env (pre ++ bad :: post) = (evs ++ evs2, some e) := by
  intro pre
  induction pre with
  | nil =>
    intro evs hpre
    obtain rfl : evs = [] := by simpa [run_dm] using hpre.symm
    simpa using run_dm_cons_err env bad post evs2 e hbad
  | cons dm pre1 ih =>
    intro evs hpre
    obtain ⟨evs1, r1, hj⟩ : ∃ a b, runJob env dm = (a, b) :=
      ⟨(runJob env dm).1, (runJob env dm).2, rfl⟩
    cases r1 with
    | some e1 =>
      rw [run_dm_cons_err env dm pre1 evs1 e1 hj] at hpre
      exact absurd hpre (by simp)
    | none =>
      rw [run_dm_cons_ok env dm pre1 evs1 hj] at hpre
      simp only [Prod.mk.injEq] at hpre
      have hrec := ih (run_dm env pre1).1 (by rw [← hpre.2])
      rw [List.cons_append, run_dm_cons_ok env dm (pre1 ++ bad :: post) evs1 hj, hrec]
      rw [← hpre.1, List.append_assoc]

/-! ## Concrete instances used by the witnesses -/

/-- The table of the spec's existence-check example. -/
def tblHg : TableContent := ⟨["id", "value", "path"], [["1", "hg38", "/data/hg38.fa"]]⟩

/-- A table with a `value` column and no rows. -/
def tblEmpty : TableContent := ⟨["value"], []⟩

/-- A service with one table `tbl`. -/
def tablesOne : String → Option TableContent :=
  fun n => if n = "tbl" then some tblHg else none

/-- A service where table `A` contains `hg38` and table `B` is empty. -/
def tablesAB : String → Option TableContent :=
  fun n => if n = "A" then some tblHg else if n = "B" then some tblEmpty else none

/-- An environment over `tablesAB` whose jobs produce one dataset that is
immediately `ok`. -/
def envAB : Env := ⟨tablesAB, fun _ _ => ["d1"], fun _ _ => "ok", fun _ => 0⟩

/-- An environment over `tablesOne` whose jobs produce one dataset that is
immediately `ok`. -/
def envOne : Env := ⟨tablesOne, fun _ _ => ["d1"], fun _ _ => "ok", fun _ => 0⟩

/-- A job declaring reload targets `A` and `B`. -/
def dmAB : JobSpec := ⟨"j", some ["hg38"], [("k", "hg38")], ["A", "B"]⟩

/-- A job with no params. -/
def dmNoParams : JobSpec := ⟨"j2", none, [], ["A"]⟩

/-- A job whose single reload target already contains its resolved value. -/
def dmSkip : JobSpec := ⟨"j", some ["x"], [("k", "hg38")], ["tbl"]⟩

/-! ## Claims -/

/-- C4.  Whenever the fetched table description has a column named exactly
`value` (at first index `idx`) and every row is long enough to carry it, the
existence check returns `ok` of the scan of that column: `true` iff some row
has the entry in that column equal (string equality) to the target value,
and `false` otherwise. -/
theorem check_entry_scans_value_column (tables : String → Option TableContent)
    (name value : String) (tc : TableContent) (idx : Nat)
    (htab : tables name = some tc)
    (hcol : tc.columns.indexOf? "value" = some idx)
    (hrows : ∀ row ∈ tc.fields, idx < row.length) :
    check_data_table_entry_exists tables name value =
      .ok (tc.fields.any fun row => row[idx]? == some value) ∧
    (check_data_table_entry_exists tables name value = .ok true ↔
      ∃ row ∈ tc.fields, row[idx]? = some value) := by
  have heq : check_data_table_entry_exists tables name value =
      .ok (tc.fields.any fun row => row[idx]? == some value) := by
    simp [check_data_table_entry_exists, htab, hcol,
      findValue_spec idx value tc.fields hrows]
  refine ⟨heq, ?_⟩
  rw [heq]
  simp [List.any_eq_true]

/-- Witness for C4: on the spec's example table, checking `hg38` returns
true and checking `hg19` returns false. -/
theorem check_entry_scans_value_column_witness :
    check_data_table_entry_exists tablesOne "tbl" "hg38" = .ok true ∧
    check_data_table_entry_exists tablesOne "tbl" "hg19" = .ok false := by
  constructor
  · rw [(check_entry_scans_value_column tablesOne "tbl" "hg38" tblHg 1
      (by decide) (by decide) (by decide)).1]
    decide
  · rw [(check_entry_scans_value_column tablesOne "tbl" "hg19" tblHg 1
      (by decide) (by decide) (by decide)).1]
    decide

/-- C1.  With more than one declared reload target, the aggregated
`item_present_in_data_table` flag equals the result of the last table in
iteration order (any earlier table's result is overwritten, not combined):
(1) for a non-empty resolved value set, an error-free aggregation over
`ts ++ [t]` is `true` iff the last table `t` reports every value present;
(2) in particular for targets `[A, B]` where `A` contains the value and `B`
does not, the aggregate is `false`; and (3) an aggregate of `false` makes
the iteration submit the job. -/
theorem multi_table_last_write_wins :
    (∀ (tables : String → Option TableContent) (values ts : List String)
       (t : String) (b : Bool), values ≠ [] → ts ≠ [] →
      checkTablesLoop tables values (ts ++ [t]) false = .ok b →
      (b = true ↔ ∀ v ∈ values,
        check_data_table_entry_exists tables t v = .ok true)) ∧
    (∀ (tables : String → Option TableContent) (tA tB v : String),
      check_data_table_entry_exists tables tA v = .ok true →
      check_data_table_entry_exists tables tB v = .ok false →
      checkTablesLoop tables [v] [tA, tB] false = .ok false) ∧
    (∀ (env : Env) (dm : JobSpec) (it : String),
      checkTablesLoop env.tables ((resolveInputs dm.params it).map Prod.snd)
        dm.data_table_reload false = .ok false →
      (runItem env dm it).1.head? =
        some (Event.submit dm.id (resolveInputs dm.params it))) := by
  refine ⟨fun tables values ts t b hv _ h =>
      checkTablesLoop_append_last tables values ts t false b hv h,
    ?_, fun env dm it h => runItem_head_submit env dm it h⟩
  intro tables tA tB v hA hB
  have h1 : checkValuesLoop tables tA [v] false = .ok true := by
    rw [checkValuesLoop_cons, hA]; rfl
  have h2 : checkValuesLoop tables tB [v] true = .ok false := by
    rw [checkValuesLoop_cons, hB]
  rw [checkTablesLoop_cons, h1]
  show checkTablesLoop tables [v] [tB] true = .ok false
  rw [checkTablesLoop_cons, h2]
  rfl

/-- Witness for C1: table `A` contains `hg38`, table `B` does not; the
aggregate over `[A, B]` is `false` and the job is submitted. -/
theorem multi_table_last_write_wins_witness :
    checkTablesLoop tablesAB ["hg38"] ["A", "B"] false = .ok false ∧
    (runItem envAB dmAB "hg38").1.head? =
      some (Event.submit "j" (resolveInputs [("k", "hg38")] "hg38")) :=
  ⟨multi_table_last_write_wins.2.1 tablesAB "A" "B" "hg38" (by decide) (by decide),
   multi_table_last_write_wins.2.2 envAB dmAB "hg38" (by decide)⟩

/-- C10.  The per-table scan is a conjunction over all resolved input
values: (1) an error-free per-table result is `true` iff every value is
present in that table; (2) the scan stops at the first absent value (the
remaining values do not matter, whatever their checks would do); (3) with
an empty resolved input set no table ever sets the flag (the incoming flag
is returned unchanged, so the initial `false` survives); and hence (4) a
job with no params is always run (its iteration submits the job). -/
theorem per_table_check_is_conjunction :
    (∀ (tables : String → Option TableContent) (t : String)
       (values : List String) (acc b : Bool), values ≠ [] →
      checkValuesLoop tables t values acc = .ok b →
      (b = true ↔ ∀ v ∈ values,
        check_data_table_entry_exists tables t v = .ok true)) ∧
    (∀ (tables : String → Option TableContent) (t v : String)
       (rest : List String) (acc : Bool),
      check_data_table_entry_exists tables t v = .ok false →
      checkValuesLoop tables t (v :: rest) acc = .ok false) ∧
    (∀ (tables : String → Option TableContent) (ts : List String) (acc : Bool),
      checkTablesLoop tables [] ts acc = .ok acc) ∧
    (∀ (env : Env) (dm : JobSpec) (it : String), dm.params = [] →
      (runItem env dm it).1.head? = some (Event.submit dm.id [])) := by
  refine ⟨fun tables t values acc b => checkValuesLoop_ok_iff tables t values acc b,
    checkValuesLoop_break, checkTablesLoop_nil_values, ?_⟩
  intro env dm it hp
  have hr : resolveInputs dm.params it = [] := by rw [hp]; rfl
  have hck : checkTablesLoop env.tables ((resolveInputs dm.params it).map Prod.snd)
      dm.data_table_reload false = .ok false := by
    rw [hr]
    exact checkTablesLoop_nil_values env.tables dm.data_table_reload false
  have hh := runItem_head_submit env dm it hck
  rw [hr] at hh
  exact hh

/-- Witness for C10: the scan of `B` stops at the absent `hg38`; an empty
value set leaves the flag `false` over `[A, B]`; a param-less job submits. -/
theorem per_table_check_is_conjunction_witness :
    checkValuesLoop tablesAB "B" ["hg38", "hg19"] true = .ok false ∧
    checkTablesLoop tablesAB [] ["A", "B"] false = .ok false ∧
    (runItem envAB dmNoParams "").1.head? = some (Event.submit "j2" []) :=
  ⟨per_table_check_is_conjunction.2.1 tablesAB "B" "hg38" ["hg19"] true (by decide),
   per_table_check_is_conjunction.2.2.1 tablesAB ["A", "B"] false,
   per_table_check_is_conjunction.2.2.2 envAB dmNoParams "" rfl⟩

/-- C8.  An iteration whose aggregated existence check reports the value
already present produces no events at all — no job submission and no reload
call — and processing continues with the next item as if the iteration had
not happened. -/
theorem already_present_skips (env : Env) (dm : JobSpec) (it : String)
    (rest : List String)
    (h : checkTablesLoop env.tables ((resolveInputs dm.params it).map Prod.snd)
      dm.data_table_reload false = .ok true) :
    runItem env dm it = ([], none) ∧
    runItems env dm (it :: rest) = runItems env dm rest := by
  have h1 : runItem env dm it = ([], none) := runItem_skip env dm it h
  refine ⟨h1, ?_⟩
  rw [runItems_cons, h1]
  simp

/-- Witness for C8: a job whose single reload target already contains the
resolved value is skipped entirely. -/
theorem already_present_skips_witness :
    runItem envOne dmSkip "x" = ([], none) ∧
    runItems envOne dmSkip ["x"] = runItems envOne dmSkip [] :=
  already_present_skips envOne dmSkip "x" [] (by decide)

/-- C5.  The existence check fails with `tableNotFound` when the service
does not know the table, and with `valueColumnMissing` when the fetched
table has no `value` column; any such error aborts the iteration before it
submits or reloads anything, and aborts the entire run at that point (jobs
after the failing one are never reached, no retry, no skip). -/
theorem misconfiguration_aborts_run :
    (∀ (tables : String → Option TableContent) (name value : String),
      tables name = none →
      check_data_table_entry_exists tables name value = .error .tableNotFound) ∧
    (∀ (tables : String → Option TableContent) (name value : String)
       (tc : TableContent), tables name = some tc → "value" ∉ tc.columns →
      check_data_table_entry_exists tables name value = .error .valueColumnMissing) ∧
    (∀ (env : Env) (dm : JobSpec) (it : String) (e : RunError),
      checkTablesLoop env.tables ((resolveInputs dm.params it).map Prod.snd)
        dm.data_table_reload false = .error e →
      runItem env dm it = ([], some e)) ∧
    (∀ (env : Env) (pre : List JobSpec) (bad : JobSpec) (post : List JobSpec)
       (evs evs2 : List Event) (e : RunError),
      run_dm env pre = (evs, none) → runJob env bad = (evs2, some e) →
      run_dm env (pre ++ bad :: post) = (evs ++ evs2, some e)) := by
  refine ⟨?_, ?_, fun env dm it e h => runItem_check_error env dm it e h,
    fun env pre bad post evs evs2 e hpre hbad =>
      run_dm_append_error env bad post evs2 e hbad pre evs hpre⟩
  · intro tables name value h
    simp [check_data_table_entry_exists, h]
  · intro tables name value tc htab hnc
    have hidx : tc.columns.indexOf? "value" = none := by
      refine List.indexOf?_eq_none_iff.mpr fun x hx => ?_
      simp only [beq_iff_eq]
      rintro rfl
      exact hnc hx
    simp [check_data_table_entry_exists, htab, hidx]

/-- Witness for C5: an unknown table name yields `tableNotFound`; a table
without a `value` column yields `valueColumnMissing`; a run whose first job
references an unknown table aborts with that error before any event. -/
theorem misconfiguration_aborts_run_witness :
    check_data_table_entry_exists tablesOne "missing" "v" = .error .tableNotFound ∧
    check_data_table_entry_exists
      (fun _ => some ⟨["id"], []⟩) "t" "v" = .error .valueColumnMissing ∧
    run_dm envAB ([] ++ ⟨"j", none, [("k", "v")], ["missing"]⟩ :: []) =
      ([], some .tableNotFound) :=
  ⟨misconfiguration_aborts_run.1 tablesOne "missing" "v" (by decide),
   misconfiguration_aborts_run.2.1 (fun _ => some ⟨["id"], []⟩) "t" "v"
     ⟨["id"], []⟩ rfl (by decide),
   misconfiguration_aborts_run.2.2.2 envAB [] ⟨"j", none, [("k", "v")], ["missing"]⟩
     [] [] [] .tableNotFound rfl (by decide)⟩

lemma runItem_submit_eq (env : Env) (dm : JobSpec) (it : String)
    (oid : String) (orest : List String) (n : Nat)
    (hck : checkTablesLoop env.tables ((resolveInputs dm.params it).map Prod.snd)
      dm.data_table_reload false = .ok false)
    (houts : env.outputsOf dm.id (resolveInputs dm.params it) = oid :: orest)
    (hbefore : ∀ m, m < n → env.stateOf oid m ∉ terminalStates)
    (hterm : env.stateOf oid n ∈ terminalStates)
    (hbound : n ≤ env.pollBound oid) :
    runItem env dm it =
      (Event.submit dm.id (resolveInputs dm.params it) ::
        (waitEvents n ++ reloadAll dm.data_table_reload), none) := by
  have hw : waitLoop (env.stateOf oid) (env.pollBound oid + 1) 0 = (waitEvents n, true) :=
    waitLoop_terminal (env.stateOf oid) n 0 (env.pollBound oid + 1)
      (by simpa using hbefore) (by simpa using hterm) (by omega)
  simp only [runItem, hck]
  simp only [houts]
  simp [hw]

lemma runItems_cons_ok (env : Env) (dm : JobSpec) (it : String)
    (rest : List String) (evs : List Event) (h : runItem env dm it = (evs, none)) :
    runItems env dm (it :: rest) =
      (evs ++ (runItems env dm rest).1, (runItems env dm rest).2) := by
  rw [runItems_cons, h]

/-- C6.  The reload step and the progression to the next item do not depend
on the job's terminal outcome: (1) a job whose watched dataset ends in the
`error` state produces the submit, the wait trace, and the full double
reload of every declared target, with no error recorded; (2) the very same
trace results from any terminal state (`ok` included), so an `error` job is
treated exactly like an `ok` one; and (3) after any completed iteration the
item loop continues with the remaining items unchanged. -/
theorem error_outcome_still_reloads :
    (∀ (env : Env) (dm : JobSpec) (it : String) (oid : String)
       (orest : List String) (n : Nat),
      checkTablesLoop env.tables ((resolveInputs dm.params it).map Prod.snd)
        dm.data_table_reload false = .ok false →
      env.outputsOf dm.id (resolveInputs dm.params it) = oid :: orest →
      (∀ m, m < n → env.stateOf oid m ∉ terminalStates) →
      env.stateOf oid n = "error" → n ≤ env.pollBound oid →
      runItem env dm it =
        (Event.submit dm.id (resolveInputs dm.params it) ::
          (waitEvents n ++ reloadAll dm.data_table_reload), none)) ∧
    (∀ (env : Env) (dm : JobSpec) (it : String) (oid : String)
       (orest : List String) (n : Nat),
      checkTablesLoop env.tables ((resolveInputs dm.params it).map Prod.snd)
        dm.data_table_reload false = .ok false →
      env.outputsOf dm.id (resolveInputs dm.params it) = oid :: orest →
      (∀ m, m < n → env.stateOf oid m ∉ terminalStates) →
      env.stateOf oid n ∈ terminalStates → n ≤ env.pollBound oid →
      runItem env dm it =
        (Event.submit dm.id (resolveInputs dm.params it) ::
          (waitEvents n ++ reloadAll dm.data_table_reload), none)) ∧
    (∀ (env : Env) (dm : JobSpec) (it : String) (rest : List String)
       (evs : List Event), runItem env dm it = (evs, none) →
      runItems env dm (it :: rest) =
        (evs ++ (runItems env dm rest).1, (runItems env dm rest).2)) := by
  refine ⟨fun env dm it oid orest n hck houts hbefore herr hbound => ?_,
    fun env dm it oid orest n hck houts hbefore hterm hbound =>
      runItem_submit_eq env dm it oid orest n hck houts hbefore hterm hbound,
    fun env dm it rest evs h => runItems_cons_ok env dm it rest evs h⟩
  exact runItem_submit_eq env dm it oid orest n hck houts hbefore
    (by rw [herr]; simp [terminalStates]) hbound

/-- A job declaring only reload target `B` (which does not contain the
value), so that it always runs. -/
def dmB : JobSpec := ⟨"j", some ["hg38"], [("k", "hg38")], ["B"]⟩

/-- An environment over `tablesAB` where the single output dataset is
`running` for one poll and then ends in the `error` state. -/
def envErr : Env :=
  ⟨tablesAB, fun _ _ => ["d1"], fun _ k => if k = 0 then "running" else "error",
   fun _ => 5⟩

/-- Witness for C6: a job ending in `error` still submits, waits one poll,
and double-reloads its declared target, with the run continuing. -/
theorem error_outcome_still_reloads_witness :
    runItem envErr dmB "hg38" =
      (Event.submit "j" (resolveInputs [("k", "hg38")] "hg38") ::
        (waitEvents 1 ++ reloadAll ["B"]), none) :=
  error_outcome_still_reloads.1 envErr dmB "hg38" "d1" [] 1
    (by decide) (by decide) (by decide) (by decide) (by decide)

/-- C7.  Every submitting iteration reloads each declared target exactly
twice, as two distinct calls in declaration order, each followed by the
fixed 5-second delay: (1) the reload trace is, per declared table in order,
`reload t, sleep 5, reload t, sleep 5`; (2) every table name receives
exactly two reload calls per occurrence in the declaration list; (3) a
submitting iteration's trace ends with exactly that reload trace. -/
theorem reload_cadence :
    (∀ ts : List String, reloadAll ts =
      (ts.map fun t =>
        [Event.reload t, Event.sleep 5, Event.reload t, Event.sleep 5]).flatten) ∧
    (∀ (ts : List String) (t : String),
      (reloadAll ts).count (Event.reload t) = 2 * ts.count t) ∧
    (∀ (env : Env) (dm : JobSpec) (it : String) (oid : String)
       (orest : List String) (n : Nat),
      checkTablesLoop env.tables ((resolveInputs dm.params it).map Prod.snd)
        dm.data_table_reload false = .ok false →
      env.outputsOf dm.id (resolveInputs dm.params it) = oid :: orest →
      (∀ m, m < n → env.stateOf oid m ∉ terminalStates) →
      env.stateOf oid n ∈ terminalStates → n ≤ env.pollBound oid →
      runItem env dm it =
        (Event.submit dm.id (resolveInputs dm.params it) ::
          (waitEvents n ++ reloadAll dm.data_table_reload), none)) := by
  refine ⟨?_, ?_,
    fun env dm it oid orest n hck houts hbefore hterm hbound =>
      runItem_submit_eq env dm it oid orest n hck houts hbefore hterm hbound⟩
  · intro ts
    induction ts with
    | nil => rfl
    | cons t ts ih => simp [reloadAll, reloadRange, ih]
  · intro ts t
    induction ts with
    | nil => simp [reloadAll]
    | cons t1 ts ih =>
      have hstep : reloadAll (t1 :: ts) =
          Event.reload t1 :: Event.sleep 5 :: Event.reload t1 :: Event.sleep 5 ::
            reloadAll ts := rfl
      rw [hstep]
      by_cases h : t1 = t
      · subst h
        simp [List.count_cons, ih]
        omega
      · simp [List.count_cons, ih, h]

/-- Witness for C7: the always-running job double-reloads `B` with the
delays, and `reloadAll` gives two reload calls for `B` and none for `A`. -/
theorem reload_cadence_witness :
    (reloadAll ["B"]).count (Event.reload "B") = 2 * (["B"].count "B") ∧
    runItem envAB dmB "hg38" =
      (Event.submit "j" (resolveInputs [("k", "hg38")] "hg38") ::
        (waitEvents 0 ++ reloadAll ["B"]), none) :=
  ⟨reload_cadence.2.1 ["B"] "B",
   reload_cadence.2.2 envAB dmB "hg38" "d1" [] 0
     (by decide) (by decide) (by decide) (by decide) (by decide)⟩

lemma updateAssoc_ne_nil (l : List (String × String)) (k v : String) :
    updateAssoc l k v ≠ [] := by
  cases l with
  | nil => simp [updateAssoc]
  | cons p rest =>
    cases p with
    | mk k1 v1 =>
      simp only [updateAssoc]
      split <;> simp

lemma foldl_update_ne_nil (it : String) :
    ∀ (ps acc : List (String × String)), acc ≠ [] →
    ps.foldl (fun a kv => updateAssoc a kv.1 (pySub it kv.2)) acc ≠ [] := by
  intro ps
  induction ps with
  | nil => intro acc h; simpa using h
  | cons p ps ih =>
    intro acc _
    rw [List.foldl_cons]
    exact ih _ (updateAssoc_ne_nil acc p.1 (pySub it p.2))

lemma resolveInputs_ne_nil (params : List (String × String)) (it : String)
    (h : params ≠ []) : resolveInputs params it ≠ [] := by
  cases params with
  | nil => exact absurd rfl h
  | cons p ps =>
    simp only [resolveInputs]
    rw [List.foldl_cons]
    exact foldl_update_ne_nil it ps _ (updateAssoc_ne_nil [] p.1 (pySub it p.2))

lemma runItems_all_skip (env : Env) (dm : JobSpec) :
    ∀ its : List String,
    (∀ it ∈ its, checkTablesLoop env.tables
      ((resolveInputs dm.params it).map Prod.snd) dm.data_table_reload false =
        .ok true) →
    runItems env dm its = ([], none) := by
  intro its
  induction its with
  | nil => intro _; rfl
  | cons it its ih =>
    intro hall
    have h1 : runItem env dm it = ([], none) :=
      runItem_skip env dm it (hall it (List.mem_cons_self it its))
    rw [runItems_cons, h1]
    simp [ih (fun u hu => hall u (List.mem_cons_of_mem it hu))]

/-- C9.  Idempotence of a second run: if every job of the configuration has
at least one param and at least one declared reload target, and every
declared target already contains every item's resolved input value in its
`value` column, then the whole run produces no events and no error — every
(job, item) pair is skipped, with no submission and no reload. -/
theorem second_run_all_skipped (env : Env) (cfg : List JobSpec)
    (h : ∀ dm ∈ cfg, dm.params ≠ [] ∧ dm.data_table_reload ≠ [] ∧
      ∀ it ∈ effItems dm, ∀ t ∈ dm.data_table_reload,
        ∀ v ∈ (resolveInputs dm.params it).map Prod.snd,
          check_data_table_entry_exists env.tables t v = .ok true) :
    run_dm env cfg = ([], none) := by
  induction cfg with
  | nil => rfl
  | cons dm rest ih =>
    obtain ⟨hp, htr, hall⟩ := h dm (List.mem_cons_self dm rest)
    have hck : ∀ it ∈ effItems dm, checkTablesLoop env.tables
        ((resolveInputs dm.params it).map Prod.snd) dm.data_table_reload false =
          .ok true := by
      intro it hit
      refine checkTablesLoop_all env.tables _ ?_ dm.data_table_reload false htr
        (fun t ht v hv => hall it hit t ht v hv)
      intro hmap
      exact resolveInputs_ne_nil dm.params it hp (by simpa using hmap)
    have hjob : runJob env dm = ([], none) :=
      runItems_all_skip env dm (effItems dm) hck
    rw [run_dm_cons_ok env dm rest [] hjob]
    simp [ih (fun d hd => h d (List.mem_cons_of_mem dm hd))]

/-- Witness for C9: one job whose single reload target already contains the
resolved value; the run is a no-op. -/
theorem second_run_all_skipped_witness :
    run_dm envOne [dmSkip] = ([], none) :=
  second_run_all_skipped envOne [dmSkip] (by decide)

/-! ## Template-resolution lemmas (C3) -/

/-- An explicit placeholder occurrence: open braces, whitespace, a casing of
`item`, whitespace, close braces. -/
def mkPH (ws1 casing ws2 : List Char) : List Char :=
  '{' :: '{' :: (ws1 ++ casing ++ ws2 ++ ['}', '}'])

lemma substAux_cons (item : List Char) (fuel : Nat) (c : Char) (cs : List Char) :
    substAux item (fuel + 1) (c :: cs) =
      match matchPlaceholder (c :: cs) with
      | some rest => item ++ substAux item fuel rest
      | none => c :: substAux item fuel cs := rfl

lemma matchCI_append :
    ∀ (pat casing rest : List Char), casing.map Char.toLower = pat →
    matchCI pat (casing ++ rest) = some rest := by
  intro pat casing
  induction casing generalizing pat with
  | nil =>
    intro rest h
    obtain rfl : pat = [] := by simpa using h.symm
    rfl
  | cons d ds ih =>
    intro rest h
    subst h
    simp only [List.map_cons, List.cons_append, matchCI, if_pos rfl]
    exact ih (ds.map Char.toLower) rest rfl

lemma matchCI_length :
    ∀ (pat l r : List Char), matchCI pat l = some r →
    r.length + pat.length = l.length := by
  intro pat
  induction pat with
  | nil =>
    intro l r h
    obtain rfl : l = r := by simpa [matchCI] using h
    simp
  | cons c cs ih =>
    intro l r h
    cases l with
    | nil => simp [matchCI] at h
    | cons d ds =>
      by_cases hd : d.toLower = c
      · have h2 : matchCI cs ds = some r := by simpa [matchCI, hd] using h
        have := ih ds r h2
        simp [List.length_cons]
        omega
      · simp [matchCI, hd] at h

lemma dropWhile_length_le (p : Char → Bool) :
    ∀ l : List Char, (l.dropWhile p).length ≤ l.length := by
  intro l
  induction l with
  | nil => simp
  | cons c cs ih =>
    rw [List.dropWhile_cons]
    by_cases h : p c = true
    · simp only [h, if_true]
      exact Nat.le_succ_of_le ih
    · simp [h]

lemma dropWhile_spaces (ws : List Char) (c : Char) (l : List Char)
    (hws : ∀ x ∈ ws, pySpace x = true) (hc : pySpace c = false) :
    (ws ++ c :: l).dropWhile pySpace = c :: l := by
  induction ws with
  | nil => simp [List.dropWhile_cons, hc]
  | cons w ws ih =>
    rw [List.cons_append, List.dropWhile_cons]
    simp only [hws w (List.mem_cons_self w ws), if_true]
    exact ih (fun x hx => hws x (List.mem_cons_of_mem w hx))

lemma pySpace_of_toLower_i (c : Char) (h : c.toLower = 'i') : pySpace c = false := by
  cases hps : pySpace c with
  | false => rfl
  | true =>
    exfalso
    have hmem : c ∈ [' ', '\t', '\n', '\x0B', '\x0C', '\r'] := by
      simpa [pySpace] using hps
    fin_cases hmem <;> revert h <;> decide

lemma matchPlaceholder_none (c : Char) (l : List Char) (h : c ≠ '{') :
    matchPlaceholder (c :: l) = none := by
  unfold matchPlaceholder
  split
  · rename_i rest heq
    injection heq with h1 _
    exact absurd h1 h
  · rfl

lemma matchPlaceholder_mkPH (ws1 casing ws2 rest : List Char)
    (h1 : ∀ x ∈ ws1, pySpace x = true)
    (hc : casing.map Char.toLower = ['i', 't', 'e', 'm'])
    (h2 : ∀ x ∈ ws2, pySpace x = true) :
    matchPlaceholder (mkPH ws1 casing ws2 ++ rest) = some rest := by
  obtain ⟨c0, ctail, rfl⟩ : ∃ c0 ctail, casing = c0 :: ctail := by
    cases casing with
    | nil => simp at hc
    | cons a b => exact ⟨a, b, rfl⟩
  rw [List.map_cons] at hc
  simp only [List.cons.injEq] at hc
  obtain ⟨hc0, hct⟩ := hc
  have hshape : mkPH ws1 (c0 :: ctail) ws2 ++ rest =
      '{' :: '{' :: (ws1 ++ c0 :: (ctail ++ (ws2 ++ '}' :: '}' :: rest))) := by
    simp [mkPH, List.append_assoc]
  rw [hshape]
  have hd1 : (ws1 ++ c0 :: (ctail ++ (ws2 ++ '}' :: '}' :: rest))).dropWhile pySpace
      = c0 :: (ctail ++ (ws2 ++ '}' :: '}' :: rest)) :=
    dropWhile_spaces ws1 c0 _ h1 (pySpace_of_toLower_i c0 hc0)
  have hm : matchCI ['i', 't', 'e', 'm'] (c0 :: (ctail ++ (ws2 ++ '}' :: '}' :: rest)))
      = some (ws2 ++ '}' :: '}' :: rest) := by
    have hassoc : (c0 :: ctail) ++ (ws2 ++ '}' :: '}' :: rest)
        = c0 :: (ctail ++ (ws2 ++ '}' :: '}' :: rest)) := rfl
    rw [← hassoc]
    refine matchCI_append ['i', 't', 'e', 'm'] (c0 :: ctail) _ ?_
    rw [List.map_cons, hc0, hct]
  have hd2 : (ws2 ++ '}' :: '}' :: rest).dropWhile pySpace = '}' :: '}' :: rest :=
    dropWhile_spaces ws2 '}' _ h2 (by decide)
  simp only [matchPlaceholder, hd1, hm, hd2]

lemma matchPlaceholder_length :
    ∀ (l r : List Char), matchPlaceholder l = some r → r.length +  8 ≤ l.length := by
  intro l r h
  unfold matchPlaceholder at h
  split at h
  · rename_i rest
    cases hm : matchCI ['i', 't', 'e', 'm'] (rest.dropWhile pySpace) with
    | none => rw [hm] at h; simp at h
    | some r2 =>
      simp only [hm] at h
      have hlen2 : r2.length + 4 = (rest.dropWhile pySpace).length :=
        matchCI_length ['i', 't', 'e', 'm'] (rest.dropWhile pySpace) r2 hm
      have hdw : (rest.dropWhile pySpace).length ≤ rest.length :=
        dropWhile_length_le pySpace rest
      split at h
      · rename_i r4 heq2
        have hreq : r4 = r := by simpa using h
        have hlen4 : (r2.dropWhile pySpace).length = r4.length + 2 := by
          rw [heq2]; simp
        have hdw2 : (r2.dropWhile pySpace).length ≤ r2.length :=
          dropWhile_length_le pySpace r2
        subst hreq
        simp only [List.length_cons]
        omega
      · simp at h
  · simp at h

lemma substAux_fuel_succ (item : List Char) :
    ∀ (fuel : Nat) (l : List Char), l.length ≤ fuel →
    substAux item (fuel + 1) l = substAux item fuel l := by
  intro fuel
  induction fuel with
  | zero =>
    intro l hl
    obtain rfl : l = [] := List.length_eq_zero.mp (Nat.le_zero.mp hl)
    rfl
  | succ f ih =>
    intro l hl
    cases l with
    | nil => rfl
    | cons c cs =>
      cases hm : matchPlaceholder (c :: cs) with
      | some rest =>
        have hlen := matchPlaceholder_length (c :: cs) rest hm
        simp only [substAux_cons, hm]
        rw [ih rest (by simp only [List.length_cons] at hlen hl ⊢; omega)]
      | none =>
        simp only [substAux_cons, hm]
        rw [ih cs (by simp only [List.length_cons] at hl; omega)]

lemma substAux_fuel_irrel (item : List Char) (l : List Char) :
    ∀ (fuel : Nat), l.length ≤ fuel → substAux item fuel l = pySubL item l := by
  intro fuel hfuel
  induction fuel, hfuel using Nat.le_induction with
  | base => rfl
  | succ m hm ih => rw [substAux_fuel_succ item m l hm, ih]

lemma pySubL_copy (item : List Char) :
    ∀ (seg rest : List Char), (∀ c ∈ seg, c ≠ '{') →
    pySubL item (seg ++ rest) = seg ++ pySubL item rest := by
  intro seg
  induction seg with
  | nil => intro rest _; simp
  | cons c cs ih =>
    intro rest hseg
    have hc : c ≠ '{' := hseg c (List.mem_cons_self c cs)
    simp only [pySubL, List.cons_append, List.length_cons]
    rw [substAux_cons, matchPlaceholder_none c (cs ++ rest) hc]
    show c :: substAux item (cs ++ rest).length (cs ++ rest) = c :: (cs ++ pySubL item rest)
    have := ih rest (fun x hx => hseg x (List.mem_cons_of_mem c hx))
    exact congrArg (List.cons c) this

lemma pySubL_placeholder (item : List Char) (ws1 casing ws2 rest : List Char)
    (h1 : ∀ x ∈ ws1, pySpace x = true)
    (hc : casing.map Char.toLower = ['i', 't', 'e', 'm'])
    (h2 : ∀ x ∈ ws2, pySpace x = true) :
    pySubL item (mkPH ws1 casing ws2 ++ rest) = item ++ pySubL item rest := by
  have hm : matchPlaceholder (mkPH ws1 casing ws2 ++ rest) = some rest :=
    matchPlaceholder_mkPH ws1 casing ws2 rest h1 hc h2
  have hlen := matchPlaceholder_length _ _ hm
  have hshape : mkPH ws1 casing ws2 ++ rest =
      '{' :: '{' :: ((ws1 ++ casing ++ ws2 ++ ['}', '}']) ++ rest) := rfl
  have hm2 : matchPlaceholder
      ('{' :: '{' :: ((ws1 ++ casing ++ ws2 ++ ['}', '}']) ++ rest)) = some rest := hm
  have hbound : rest.length ≤ ((ws1 ++ casing ++ ws2 ++ ['}', '}']) ++ rest).length + 1 := by
    rw [hshape] at hlen
    simp only [List.length_cons] at hlen
    omega
  rw [pySubL, hshape]
  simp only [List.length_cons]
  rw [substAux_cons, hm2]
  show item ++ substAux item (((ws1 ++ casing ++ ws2 ++ ['}', '}']) ++ rest).length + 1) rest
      = item ++ pySubL item rest
  rw [substAux_fuel_irrel item rest _ hbound]

/-- A template assembled from placeholder-free literal segments, each
followed by one placeholder occurrence, and a placeholder-free tail. -/
def buildTemplate :
    List (List Char × List Char × List Char × List Char) → List Char → List Char
  | [], last => last
  | (seg, ws1, casing, ws2) :: rest, last =>
    seg ++ (mkPH ws1 casing ws2 ++ buildTemplate rest last)

/-- The same template with every placeholder replaced by the item string. -/
def buildResolved (item : List Char) :
    List (List Char × List Char × List Char × List Char) → List Char → List Char
  | [], last => last
  | (seg, _, _, _) :: rest, last => seg ++ (item ++ buildResolved item rest last)

/-- C3.  Template resolution replaces every placeholder occurrence — open
braces, optional whitespace, `item` in any letter casing, optional
whitespace, close braces — by exactly the item string, literally (the
replacement is inserted verbatim and never rescanned, so no recursive
substitution happens even if the item itself contains a placeholder), and
leaves all other characters unchanged.  Stated for every value assembled
from brace-free literal segments and placeholder occurrences. -/
theorem template_resolution (item last : List Char)
    (segs : List (List Char × List Char × List Char × List Char))
    (hsegs : ∀ seg ws1 casing ws2, (seg, ws1, casing, ws2) ∈ segs →
      (∀ c ∈ seg, c ≠ '{') ∧ (∀ x ∈ ws1, pySpace x = true) ∧
      casing.map Char.toLower = ['i', 't', 'e', 'm'] ∧
      (∀ x ∈ ws2, pySpace x = true))
    (hlast : ∀ c ∈ last, c ≠ '{') :
    pySubL item (buildTemplate segs last) = buildResolved item segs last := by
  induction segs with
  | nil =>
    have h := pySubL_copy item last [] hlast
    rw [List.append_nil] at h
    rw [show pySubL item ([] : List Char) = [] from rfl, List.append_nil] at h
    exact h
  | cons q rest ih =>
    obtain ⟨seg, ws1, casing, ws2⟩ := q
    obtain ⟨hs, h1, hc, h2⟩ :=
      hsegs seg ws1 casing ws2 (List.mem_cons_self _ rest)
    show pySubL item (seg ++ (mkPH ws1 casing ws2 ++ buildTemplate rest last)) = _
    rw [pySubL_copy item seg _ hs,
      pySubL_placeholder item ws1 casing ws2 _ h1 hc h2,
      ih (fun s w1 cg w2 hmem => hsegs s w1 cg w2 (List.mem_cons_of_mem _ hmem))]
    rfl

/-- Witness for C3: resolving `x {{Item}} - {{ ITEM }} end` (as character
lists) against item `hg38` replaces both occurrences by `hg38` exactly. -/
theorem template_resolution_witness :
    pySubL ['h', 'g', '3', '8']
      (buildTemplate
        [(['x', ' '], [], ['I', 't', 'e', 'm'], []),
         ([' ', '-', ' '], [' '], ['I', 'T', 'E', 'M'], [' '])]
        [' ', 'e', 'n', 'd']) =
    buildResolved ['h', 'g', '3', '8']
      [(['x', ' '], [], ['I', 't', 'e', 'm'], []),
       ([' ', '-', ' '], [' '], ['I', 'T', 'E', 'M'], [' '])]
      [' ', 'e', 'n', 'd'] := by
  refine template_resolution ['h', 'g', '3', '8'] [' ', 'e', 'n', 'd'] _ ?_ (by decide)
  intro seg ws1 casing ws2 hmem
  simp only [List.mem_cons, List.not_mem_nil, or_false, Prod.mk.injEq] at hmem
  rcases hmem with ⟨rfl, rfl, rfl, rfl⟩ | ⟨rfl, rfl, rfl, rfl⟩ <;>
    exact ⟨by decide, by decide, by decide, by decide⟩

end Ephemeris
